import Mathlib

/-!
Verification of the PSX missing-data engine: a shallow embedding of the
gap-detection script (`find_missing_data.py`) and the backfill executor
(`fill_missing_data.py`), together with theorems settling the spec claims.

Dates are modelled as natural numbers counting calendar days from a fixed
Monday (day 0 = 2024-12-30, a Monday), so `d % 7 < 5` says day `d` is a
Monday-Friday business day, mirroring `pandas.bdate_range`'s Mon-Fri
frequency.  ISO date strings in the report file are in bijection with these
day numbers, so report entries store day numbers directly.
-/

namespace PSX

/-! ### Calendar model (`pd.bdate_range`) -/

/-- Mon-Fri test, as used by `pandas.bdate_range`. -/
def isBusinessDay (d : Nat) : Bool := decide (d % 7 < 5)

/-- `pd.bdate_range(start=s, end=e)`: every Mon-Fri day in `[s, e]`, ascending.
An empty interval (`s > e`) gives the empty list. -/
def bdateRange (s e : Nat) : List Nat :=
  (List.range' s (e + 1 - s)).filter isBusinessDay

/-- `len(pd.bdate_range(s, e))`, the business-day length of `[s, e]`. -/
def bdateCount (s e : Nat) : Nat := (bdateRange s e).length

/-- A `{"start": ..., "end": ...}` JSON range object.  The field `stop`
stands for the source's `end` key (`end` is a Lean keyword). -/
structure DateRange where
  start : Nat
  stop : Nat
deriving DecidableEq

/-! ### `find_missing_dates` (find_missing_data.py, lines 50-93)

A stored price record is modelled as a pair `(day, timeOfDay)`; the Mongo
query keeps records whose datetime lies between `start` at 00:00 and `end`
at 23:59:59.999999, i.e. whose day component lies in `[s, e]`, and
`doc['date'].date()` discards the time-of-day component. -/

/-- Lines 50-93 of `find_missing_data.py`: expected business dates minus
exclusion-range business dates minus the calendar dates already stored,
returned sorted ascending (`sorted(list(expected_dates_set - db_dates))`). -/
def find_missing_dates (stored : List (Nat × Nat)) (startDate endDate : Nat)
    (exclusions : List DateRange) : List Nat :=
  let db_dates : Finset Nat :=
    ((stored.filter (fun t => decide (startDate ≤ t.1) && decide (t.1 ≤ endDate))).map
      Prod.fst).toFinset
  let expected_dates_set : Finset Nat :=
    exclusions.foldl (fun acc ex => acc \ (bdateRange ex.start ex.stop).toFinset)
      (bdateRange startDate endDate).toFinset
  (expected_dates_set \ db_dates).sort (· ≤ ·)

/-! ### `group_missing_dates` (find_missing_data.py, lines 102-140) -/

/-- The walking loop of `group_missing_dates`: `cs`/`ce` are
`current_start`/`current_end`; a next date within 3 calendar days extends
the current range, otherwise the range is closed and kept only when its
business-day length exceeds `m` (`max_ignored_gap_size`).  The final range
is closed the same way. -/
def groupLoop (m : Nat) : List Nat → Nat → Nat → List DateRange
  | [], cs, ce => if m < bdateCount cs ce then [⟨cs, ce⟩] else []
  | next :: rest, cs, ce =>
    if next - ce ≤ 3 then groupLoop m rest cs next
    else (if m < bdateCount cs ce then [⟨cs, ce⟩] else []) ++ groupLoop m rest next next

/-- Lines 102-140 of `find_missing_data.py`. -/
def group_missing_dates (missing_dates : List Nat) (max_ignored_gap_size : Nat) :
    List DateRange :=
  match missing_dates with
  | [] => []
  | d :: rest => groupLoop max_ignored_gap_size rest d d

/-! ### The backfill executor (fill_missing_data.py)

The report file is a JSON object mapping symbols to lists of ranges; it is
modelled as an association list in key-insertion order.  The external
collaborators (`psx.stocks` and `save_to_mongodb`) are modelled as oracles:
a fetch either raises, returns no data, or returns per-symbol slices (a
slice being `none` when absent/unresolvable and `some n` for a DataFrame
with `n` rows, `n = 0` meaning an empty frame); an upsert returns the
`success` boolean of `save_to_mongodb`. -/

abbrev Symbol := String

abbrev Report := List (Symbol × List DateRange)

/-- Outcome of `stocks(sub_batch, start, end)`. -/
inductive FetchResult where
  | fetchError : FetchResult
  | noData : FetchResult
  | frames (slices : Symbol → Option Nat) : FetchResult

/-- The two external collaborators of the executor. -/
structure Oracles where
  fetch : DateRange → List Symbol → FetchResult
  upsert : Symbol → DateRange → Bool

/-- Observable side effects of one executor run, in order. -/
inductive Effect where
  | fetched (r : DateRange) (syms : List Symbol)
  | upserted (s : Symbol) (r : DateRange) (ok : Bool)
  | wroteReport (rep : Report)

/-- Chunking `symbols_to_process` into `fetch_batch_size`-sized sub-batches
(lines 93-100); the fuel equals the list length, enough for any positive
chunk size. -/
def chunksGo {α : Type} (fuel n : Nat) (l : List α) : List (List α) :=
  match fuel, l with
  | 0, _ => []
  | _, [] => []
  | f + 1, x :: xs => (x :: xs).take n :: chunksGo f n ((x :: xs).drop n)

/-- All `fetch_batch_size`-sized sub-batches of a symbol list. -/
def chunks {α : Type} (n : Nat) (l : List α) : List (List α) := chunksGo l.length n l

/-- The per-symbol body of the sub-batch loop (lines 115-147): resolve the
symbol's slice; a missing or empty slice is skipped without failing the
unit; a non-empty slice is upserted and a failed upsert clears the
`range_fully_successful` flag. -/
def processSymbol (o : Oracles) (r : DateRange) (sl : Symbol → Option Nat)
    (acc : Bool × List Effect) (s : Symbol) : Bool × List Effect :=
  match sl s with
  | none => acc
  | some 0 => acc
  | some (_ + 1) =>
    let ok := o.upsert s r
    (acc.1 && ok, acc.2 ++ [Effect.upserted s r ok])

/-- One sub-batch (lines 105-151): fetch, then apply `processSymbol` to each
symbol.  A fetch exception fails the unit; a `None`/empty fetch result is
treated as success (`continue`). -/
def processSubBatch (o : Oracles) (r : DateRange) (syms : List Symbol) :
    Bool × List Effect :=
  match o.fetch r syms with
  | FetchResult.fetchError => (false, [Effect.fetched r syms])
  | FetchResult.noData => (true, [Effect.fetched r syms])
  | FetchResult.frames sl => syms.foldl (processSymbol o r sl) (true, [Effect.fetched r syms])

/-- `q['start'] == start and q['end'] == end` (line 165). -/
def rangeMatches (r q : DateRange) : Bool :=
  decide (q.start = r.start) && decide (q.stop = r.stop)

/-- Lines 160-169 for one symbol: filter the retired range out of the
symbol's obligation list and delete the key when the list becomes empty. -/
def retireSymbol (rep : Report) (r : DateRange) (s : Symbol) : Report :=
  if rep.any (fun p => p.1 == s) then
    (rep.map (fun p => if p.1 == s then (p.1, p.2.filter (fun q => !(rangeMatches r q))) else p)).filter
      (fun p => !(p.1 == s && p.2.isEmpty))
  else rep

/-- Lines 159-169: retire range `r` for every symbol of the unit. -/
def retireRange (rep : Report) (r : DateRange) (syms : List Symbol) : Report :=
  syms.foldl (fun acc s => retireSymbol acc r s) rep

/-- The effect of retiring range `r` on one symbol's obligation list, stated
as a transformer on the lookup result (`none` = key absent). -/
def retireTransform (r : DateRange) : Option (List DateRange) → Option (List DateRange)
  | none => none
  | some l =>
    let l2 := l.filter (fun q => !(rangeMatches r q))
    if l2.isEmpty then none else some l2

/-- The branchless core of `retireSymbol`: map-then-filter.  It agrees with
`retireSymbol` even without the `symbol in missing_data` guard, because the
map and the filter leave entries with other keys untouched. -/
def retireSymbolCore (rep : Report) (r : DateRange) (s : Symbol) : Report :=
  (rep.map (fun p => if p.1 == s then (p.1, p.2.filter (fun q => !(rangeMatches r q))) else p)).filter
    (fun p => !(p.1 == s && p.2.isEmpty))

/-- Accumulating one sub-batch into the `range_fully_successful` flag and the
effect trace. -/
def subBatchStep (o : Oracles) (r : DateRange) (acc : Bool × List Effect)
    (sb : List Symbol) : Bool × List Effect :=
  let pr := processSubBatch o r sb
  (acc.1 && pr.1, acc.2 ++ pr.2)

/-- Lines 92-177 for one unique range: run every sub-batch, and when the
whole range was fully successful retire it for every symbol of the unit and
rewrite the report file. -/
def processRange (o : Oracles) (batchSize : Nat) (rep : Report) (r : DateRange)
    (syms : List Symbol) : Report × List Effect :=
  let res := (chunks batchSize syms).foldl (subBatchStep o r) (true, [])
  if res.1 then
    let rep2 := retireRange rep r syms
    (rep2, res.2 ++ [Effect.wroteReport rep2])
  else (rep, res.2)

/-- Inserting one `(range, symbol)` pair into `ranges_to_symbols`
(lines 62-68), preserving Python dict insertion order. -/
def addToRangeMap (m : List (DateRange × List Symbol)) (key : DateRange) (s : Symbol) :
    List (DateRange × List Symbol) :=
  if m.any (fun p => decide (p.1 = key)) then
    m.map (fun p => if p.1 = key then (p.1, p.2 ++ [s]) else p)
  else m ++ [(key, [s])]

/-- Lines 62-68: group the report by identical `(start, end)` pairs. -/
def buildRangeMap (rep : Report) : List (DateRange × List Symbol) :=
  rep.foldl (fun acc p => p.2.foldl (fun acc2 r => addToRangeMap acc2 r p.1) acc) []

/-- `ranges_to_symbols[(start, end)]`. -/
def lookupRange (m : List (DateRange × List Symbol)) (key : DateRange) : List Symbol :=
  match m.find? (fun p => decide (p.1 = key)) with
  | some p => p.2
  | none => []

/-- `get_duration` (lines 73-76): signed day duration of a range. -/
def duration (r : DateRange) : Int := (r.stop : Int) - (r.start : Int)

/-- One step of the stable descending sort of `unique_ranges` (line 78):
insert before the first element of no larger duration. -/
def insertDesc (r : DateRange) : List DateRange → List DateRange
  | [] => [r]
  | x :: xs => if duration x ≤ duration r then r :: x :: xs else x :: insertDesc r xs

/-- `unique_ranges.sort(key=get_duration, reverse=True)`: a stable sort by
duration descending. -/
def sortByDurationDesc : List DateRange → List DateRange
  | [] => []
  | x :: xs => insertDesc x (sortByDurationDesc xs)

/-- `list(ranges_to_symbols.keys())` (line 70). -/
def uniqueRanges (rep : Report) : List DateRange := (buildRangeMap rep).map Prod.fst

/-- The distinct ranges in the order the executor processes them. -/
def processedRanges (rep : Report) : List DateRange := sortByDurationDesc (uniqueRanges rep)

/-- `load_missing_data_report` (lines 23-33): any open/parse exception
yields `None`. -/
def load_missing_data_report (raw : Except String Report) : Option Report :=
  match raw with
  | Except.ok rep => some rep
  | Except.error _ => none

/-- `main` of `fill_missing_data.py`: abort when the report failed to load
or is empty (`if not missing_data`), otherwise process each unique range in
duration-descending order, threading the in-memory report.  Returns the
final persisted report (`none` when the run aborted before any work, since
the file is then never rewritten) and the effect trace. -/
def rangeStep (o : Oracles) (batchSize : Nat) (rmap : List (DateRange × List Symbol))
    (acc : Report × List Effect) (r : DateRange) : Report × List Effect :=
  let pr := processRange o batchSize acc.1 r (lookupRange rmap r)
  (pr.1, acc.2 ++ pr.2)

def runMain (loaded : Option Report) (o : Oracles) (batchSize : Nat) :
    Option Report × List Effect :=
  match loaded with
  | none => (none, [])
  | some rep =>
    if rep.isEmpty then (some rep, [])
    else
      let res := (processedRanges rep).foldl (rangeStep o batchSize (buildRangeMap rep))
        (rep, [])
      (some res.1, res.2)

/-! ### The detection run's report construction (find_missing_data.py, main) -/

/-- `all_missing_data[symbol] = ranges` (line 262): Python dict assignment,
overwriting an existing key or appending a new one. -/
def dictInsert (rep : Report) (s : Symbol) (v : List DateRange) : Report :=
  if rep.any (fun p => p.1 == s) then
    rep.map (fun p => if p.1 == s then (p.1, v) else p)
  else rep ++ [(s, v)]

/-- Lines 251-268 of `find_missing_data.py`: a symbol enters the report only
when it has missing dates and grouping leaves at least one range. -/
def buildDetectionReport (symbols : List Symbol) (cov : Symbol → List (Nat × Nat))
    (startDate endDate : Nat) (exclusions : List DateRange) (m : Nat) : Report :=
  symbols.foldl (fun acc s =>
    let missing := find_missing_dates (cov s) startDate endDate exclusions
    if missing.isEmpty then acc
    else
      let ranges := group_missing_dates missing m
      if ranges.isEmpty then acc else dictInsert acc s ranges) []

/-! ### Derived observation helpers -/

/-- The range a fetch or upsert effect belongs to (`none` for report
writes). -/
def effectRange : Effect → Option DateRange
  | Effect.fetched r _ => some r
  | Effect.upserted _ r _ => some r
  | Effect.wroteReport _ => none

/-- The range every fetch or upsert effect of a trace belongs to, in trace
order. -/
def touchedRanges (effs : List Effect) : List DateRange :=
  effs.filterMap effectRange

/-- Expand grouped ranges back into their business days, concatenated in
order (used by the idempotence claim). -/
def expandRanges : List DateRange → List Nat
  | [] => []
  | r :: rs => bdateRange r.start r.stop ++ expandRanges rs

/-! ### Concrete scenario data

Day numbers: 2025-01-01 = day 2, 2025-01-05 = day 6, 2025-02-01 = day 33
(a Saturday), 2025-02-10 = day 42 (a Monday). -/

/-- The `[2025-02-01, 2025-02-10]` range of Scenario B. -/
def unitRange : DateRange := ⟨33, 42⟩

/-- A report in which symbols A, B and C all owe exactly `unitRange`. -/
def reportABC : Report := [("A", [unitRange]), ("B", [unitRange]), ("C", [unitRange])]

/-- A report in which symbols A and B owe exactly `unitRange`. -/
def reportAB : Report := [("A", [unitRange]), ("B", [unitRange])]

/-- A DataSource returning data for every symbol but B (empty slice for B),
over a store whose upserts always succeed. -/
def oraclesEmptySliceB : Oracles :=
  { fetch := fun _ _ => FetchResult.frames (fun s => if s = "B" then none else some 5),
    upsert := fun _ _ => true }

/-- A DataSource returning data for every symbol, over a store whose upsert
fails for symbol B and succeeds otherwise. -/
def oraclesUpsertFailB : Oracles :=
  { fetch := fun _ _ => FetchResult.frames (fun _ => some 5),
    upsert := fun s _ => !(s == "B") }

/-! ### Calendar lemmas -/

theorem mem_bdateRange {s e d : Nat} : d ∈ bdateRange s e ↔ s ≤ d ∧ d ≤ e ∧ d % 7 < 5 := by
  simp only [bdateRange, isBusinessDay, List.mem_filter, List.mem_range'_1, decide_eq_true_eq]
  omega

theorem bdateCount_pos {s e : Nat} (hse : s ≤ e) (hb : s % 7 < 5) : 0 < bdateCount s e := by
  have hmem : s ∈ bdateRange s e := mem_bdateRange.mpr ⟨le_refl s, hse, hb⟩
  exact List.length_pos.mpr (fun h => by simp [h] at hmem)

/-! ### Exclusion-fold characterization -/

theorem mem_excludeFold (ex : List DateRange) (init : Finset Nat) (d : Nat) :
    (d ∈ ex.foldl (fun acc q => acc \ (bdateRange q.start q.stop).toFinset) init) ↔
      (d ∈ init ∧ ∀ q ∈ ex, ¬(q.start ≤ d ∧ d ≤ q.stop ∧ d % 7 < 5)) := by
  induction ex generalizing init with
  | nil => simp
  | cons q tl ih =>
    rw [List.foldl_cons, ih]
    simp only [Finset.mem_sdiff, List.mem_toFinset, mem_bdateRange, List.forall_mem_cons]
    tauto

/-- C3: for every symbol's stored records, start date, end date and exclusion
list, `find_missing_dates` returns exactly the strictly ascending (hence
duplicate-free) list of the set difference between the expected dates — the
Mon-Fri days of `[start, end]` minus the Mon-Fri days of each exclusion
sub-range — and the calendar dates (time-of-day discarded) stored for the
symbol within the queried window. -/
theorem find_missing_dates_exact (stored : List (Nat × Nat)) (s e : Nat)
    (ex : List DateRange) :
    List.Sorted (· < ·) (find_missing_dates stored s e ex) ∧
    ∀ d, d ∈ find_missing_dates stored s e ex ↔
      ((s ≤ d ∧ d ≤ e ∧ d % 7 < 5) ∧
        (∀ q ∈ ex, ¬(q.start ≤ d ∧ d ≤ q.stop ∧ d % 7 < 5)) ∧
        ¬∃ t, (d, t) ∈ stored ∧ s ≤ d ∧ d ≤ e) := by
  constructor
  · exact Finset.sort_sorted_lt _
  · intro d
    simp only [find_missing_dates]
    rw [Finset.mem_sort, Finset.mem_sdiff, mem_excludeFold]
    simp only [List.mem_toFinset, mem_bdateRange, List.mem_map, List.mem_filter,
      Bool.and_eq_true, decide_eq_true_eq]
    constructor
    · rintro ⟨⟨hexp, hex⟩, hdb⟩
      refine ⟨hexp, hex, ?_⟩
      rintro ⟨t, hts, hsd, hde⟩
      exact hdb ⟨(d, t), ⟨hts, hsd, hde⟩, rfl⟩
    · rintro ⟨hexp, hex, hdb⟩
      refine ⟨⟨hexp, hex⟩, ?_⟩
      rintro ⟨⟨a, b⟩, ⟨hab, h1, h2⟩, rfl⟩
      exact hdb ⟨b, hab, h1, h2⟩

/-! ### Grouping lemmas -/

theorem groupLoop_nil (m cs ce : Nat) :
    groupLoop m [] cs ce = if m < bdateCount cs ce then [⟨cs, ce⟩] else [] := rfl

theorem groupLoop_cons (m next cs ce : Nat) (rest : List Nat) :
    groupLoop m (next :: rest) cs ce =
      if next - ce ≤ 3 then groupLoop m rest cs next
      else (if m < bdateCount cs ce then [⟨cs, ce⟩] else []) ++ groupLoop m rest next next := rfl

theorem groupLoop_spec (m : Nat) (rest : List Nat) :
    ∀ cs ce : Nat, List.Chain' (· ≤ ·) (ce :: rest) → cs ≤ ce →
      (∀ r ∈ groupLoop m rest cs ce,
          cs ≤ r.start ∧ r.start ≤ r.stop ∧ m < bdateCount r.start r.stop ∧
          (r.start = cs ∨ r.start ∈ rest) ∧ (r.stop = ce ∨ r.stop ∈ rest)) ∧
      List.Pairwise (fun a b => a.stop + 3 < b.start) (groupLoop m rest cs ce) := by
  induction rest with
  | nil =>
    intro cs ce _ hcs
    constructor
    · intro r hr
      by_cases h : m < bdateCount cs ce
      · rw [groupLoop_nil, if_pos h] at hr
        simp only [List.mem_singleton] at hr
        subst hr
        exact ⟨le_refl _, hcs, h, Or.inl rfl, Or.inl rfl⟩
      · rw [groupLoop_nil, if_neg h] at hr
        simp at hr
    · by_cases h : m < bdateCount cs ce <;> simp [groupLoop_nil, h]
  | cons next tl ih =>
    intro cs ce hch hcs
    rw [List.chain'_cons] at hch
    obtain ⟨hle, hch'⟩ := hch
    by_cases hgap : next - ce ≤ 3
    · have h := ih cs next hch' (le_trans hcs hle)
      rw [groupLoop_cons, if_pos hgap]
      refine ⟨fun r hr => ?_, h.2⟩
      obtain ⟨h1, h2, h3, h4, h5⟩ := h.1 r hr
      refine ⟨h1, h2, h3, ?_, ?_⟩
      · rcases h4 with h4 | h4
        · exact Or.inl h4
        · exact Or.inr (List.mem_cons_of_mem _ h4)
      · rcases h5 with h5 | h5
        · exact Or.inr (by rw [h5]; exact List.mem_cons_self _ _)
        · exact Or.inr (List.mem_cons_of_mem _ h5)
    · have hrec := ih next next hch' (le_refl next)
      rw [groupLoop_cons, if_neg hgap]
      have hgap' : ce + 3 < next := by omega
      constructor
      · intro r hr
        rw [List.mem_append] at hr
        rcases hr with hr | hr
        · by_cases h : m < bdateCount cs ce
          · rw [if_pos h] at hr
            simp only [List.mem_singleton] at hr
            subst hr
            exact ⟨le_refl _, hcs, h, Or.inl rfl, Or.inl rfl⟩
          · rw [if_neg h] at hr
            simp at hr
        · obtain ⟨h1, h2, h3, h4, h5⟩ := hrec.1 r hr
          have hcn : cs ≤ next := by omega
          refine ⟨le_trans hcn h1, h2, h3, ?_, ?_⟩
          · rcases h4 with h4 | h4
            · exact Or.inr (by rw [h4]; exact List.mem_cons_self _ _)
            · exact Or.inr (List.mem_cons_of_mem _ h4)
          · rcases h5 with h5 | h5
            · exact Or.inr (by rw [h5]; exact List.mem_cons_self _ _)
            · exact Or.inr (List.mem_cons_of_mem _ h5)
      · rw [List.pairwise_append]
        refine ⟨?_, hrec.2, ?_⟩
        · by_cases h : m < bdateCount cs ce <;> simp [h]
        · intro a ha b hb
          have hstop : a.stop = ce := by
            by_cases h : m < bdateCount cs ce
            · rw [if_pos h] at ha
              simp only [List.mem_singleton] at ha
              subst ha; rfl
            · rw [if_neg h] at ha
              simp at ha
          have hb1 := (hrec.1 b hb).1
          omega

/-- C4: for every ascending input list and every minimum-duration value, the
output of `group_missing_dates` consists of ranges with `start ≤ end` whose
business-day length strictly exceeds the minimum, the output is ascending
with pairwise-disjoint ranges more than 3 calendar days (the gap tolerance)
apart, and empty input yields empty output. -/
theorem group_missing_dates_invariants (missing : List Nat) (m : Nat)
    (hs : List.Sorted (· ≤ ·) missing) :
    ((group_missing_dates missing m).all
        (fun r => decide (r.start ≤ r.stop) && decide (m < bdateCount r.start r.stop)) = true) ∧
    List.Pairwise (fun a b => a.stop + 3 < b.start) (group_missing_dates missing m) ∧
    group_missing_dates [] m = [] := by
  refine ⟨?_, ?_, rfl⟩ <;> cases missing with
  | nil => simp [group_missing_dates]
  | cons d rest =>
    have h := groupLoop_spec m rest d d hs.chain' (le_refl d)
    first
    | · rw [List.all_eq_true]
        intro r hr
        obtain ⟨_, h2, h3, _, _⟩ := h.1 r hr
        simp [h2, h3]
    | exact h.2

/-- C4 witness: a concrete ascending input. -/
theorem group_missing_dates_invariants_witness :
    ((group_missing_dates [7, 8, 14] 0).all
        (fun r => decide (r.start ≤ r.stop) && decide (0 < bdateCount r.start r.stop)) = true) ∧
    List.Pairwise (fun a b => a.stop + 3 < b.start) (group_missing_dates [7, 8, 14] 0) ∧
    group_missing_dates [] 0 = [] :=
  group_missing_dates_invariants [7, 8, 14] 0 (by decide)

/-- All consecutive dates within the 3-day tolerance merge into one range
running to the last date. -/
theorem groupLoop_chain_all (m : Nat) (rest : List Nat) :
    ∀ cs ce : Nat, List.Chain' (fun a b => b - a ≤ 3) (ce :: rest) →
      groupLoop m rest cs ce =
        if m < bdateCount cs ((ce :: rest).getLast (List.cons_ne_nil ce rest)) then
          [⟨cs, (ce :: rest).getLast (List.cons_ne_nil ce rest)⟩]
        else [] := by
  induction rest with
  | nil => intro cs ce _; rfl
  | cons next tl ih =>
    intro cs ce hch
    rw [List.chain'_cons] at hch
    rw [groupLoop_cons, if_pos hch.1, ih cs next hch.2]
    have hlast : (ce :: next :: tl).getLast (List.cons_ne_nil ce (next :: tl)) =
        (next :: tl).getLast (List.cons_ne_nil next tl) := List.getLast_cons _
    rw [hlast]

/-- C5 (amended): the walking loop extends the current range to the next
date exactly when the calendar-day difference is at most 3 — a tolerance
hard-coded in `group_missing_dates`, which recognizes no gap-tolerance
configuration input (its only parameter besides the dates is the
minimum-duration filter); consequently any run of dates with consecutive
differences ≤ 3 merges into a single range. -/
theorem group_merge_rule (d1 d2 m : Nat) (rest : List Nat)
    (hb1 : d1 % 7 < 5) (hb2 : d2 % 7 < 5) (hle : d1 ≤ d2)
    (hch : List.Chain' (fun a b => b - a ≤ 3) (d1 :: rest)) :
    (group_missing_dates [d1, d2] 0 = [⟨d1, d2⟩] ↔ d2 - d1 ≤ 3) ∧
    group_missing_dates (d1 :: rest) m =
      (if m < bdateCount d1 ((d1 :: rest).getLast (List.cons_ne_nil d1 rest)) then
        [⟨d1, (d1 :: rest).getLast (List.cons_ne_nil d1 rest)⟩]
      else []) := by
  constructor
  · constructor
    · intro heq
      by_contra hgt
      rw [show group_missing_dates [d1, d2] 0 = groupLoop 0 [d2] d1 d1 from rfl,
        groupLoop_cons, if_neg hgt, groupLoop_nil] at heq
      rw [if_pos (bdateCount_pos (le_refl d1) hb1),
        if_pos (bdateCount_pos (le_refl d2) hb2)] at heq
      simp only [List.cons_append, List.nil_append, List.cons.injEq, DateRange.mk.injEq,
        and_true, true_and] at heq
      omega
    · intro h3
      rw [show group_missing_dates [d1, d2] 0 = groupLoop 0 [d2] d1 d1 from rfl,
        groupLoop_cons, if_pos h3, groupLoop_nil, if_pos (bdateCount_pos hle hb1)]
  · exact groupLoop_chain_all m rest d1 d1 hch

/-- C5 counterexample: days 7 and 11 (a Monday and the following Friday)
differ by 4 calendar days; with a configured gap tolerance of 4 the claim
requires them to merge into one range, but the grouping keeps them separate
because its 3-day tolerance is hard-coded. -/
theorem group_merge_rule_counterexample :
    group_missing_dates [7, 11] 0 = [⟨7, 7⟩, ⟨11, 11⟩] ∧
    11 - 7 ≤ 4 ∧ (7 : Nat) % 7 < 5 ∧ (11 : Nat) % 7 < 5 := by decide

/-! ### Idempotence of grouping -/

theorem range'_snoc (s n : Nat) : List.range' s (n + 1) = List.range' s n ++ [s + n] := by
  induction n generalizing s with
  | zero => simp [List.range'_succ]
  | succ k ih =>
    rw [List.range'_succ, ih (s + 1), List.range'_succ]
    simp [Nat.add_comm, Nat.add_assoc, Nat.add_left_comm]

/-- The head of a business-day filter is the least business day of the
interval: everything before it is a weekend day. -/
theorem filterBusiness_head_spec :
    ∀ (n s h : Nat), ((List.range' s n).filter isBusinessDay).head? = some h →
      s ≤ h ∧ h % 7 < 5 ∧ ∀ d, s ≤ d → d < h → 5 ≤ d % 7 := by
  intro n
  induction n with
  | zero => intro s h hh; simp [List.range'] at hh
  | succ n ih =>
    intro s h hh
    rw [List.range'_succ s n 1, List.filter_cons] at hh
    by_cases hb : isBusinessDay s
    · rw [if_pos hb] at hh
      simp only [List.head?_cons, Option.some.injEq] at hh
      subst hh
      refine ⟨le_refl s, by simpa [isBusinessDay] using hb, fun d hd1 hd2 => ?_⟩
      omega
    · rw [if_neg hb] at hh
      have hspec := ih (s + 1) h hh
      have hbs : ¬ s % 7 < 5 := by simpa [isBusinessDay] using hb
      refine ⟨by omega, hspec.2.1, fun d hd1 hd2 => ?_⟩
      rcases Nat.eq_or_lt_of_le hd1 with hd | hd
      · omega
      · exact hspec.2.2 d hd hd2

/-- Consecutive business days are at most 3 calendar days apart (a weekend
at most lies between them). -/
theorem filterBusiness_chain :
    ∀ (n s : Nat), List.Chain' (fun a b => b - a ≤ 3) ((List.range' s n).filter isBusinessDay) := by
  intro n
  induction n with
  | zero => intro s; simp [List.range']
  | succ n ih =>
    intro s
    rw [List.range'_succ s n 1, List.filter_cons]
    by_cases hb : isBusinessDay s
    · rw [if_pos hb, List.chain'_cons']
      refine ⟨fun y hy => ?_, ih (s + 1)⟩
      have hspec := filterBusiness_head_spec n (s + 1) y (Option.mem_def.mp hy)
      have hbs : s % 7 < 5 := by simpa [isBusinessDay] using hb
      by_contra hgt
      have h1 := hspec.2.2 (s + 1) (by omega) (by omega)
      have h2 := hspec.2.2 (s + 2) (by omega) (by omega)
      have h3 := hspec.2.2 (s + 3) (by omega) (by omega)
      omega
    · rw [if_neg hb]
      exact ih (s + 1)

theorem bdateRange_chain (s e : Nat) :
    List.Chain' (fun a b => b - a ≤ 3) (bdateRange s e) :=
  filterBusiness_chain (e + 1 - s) s

theorem bdateRange_eq_cons {s e : Nat} (hse : s ≤ e) (hb : s % 7 < 5) :
    ∃ t, bdateRange s e = s :: t := by
  unfold bdateRange
  have h1 : e + 1 - s = (e - s) + 1 := by omega
  rw [h1, List.range'_succ s (e - s) 1, List.filter_cons,
    if_pos (by simpa [isBusinessDay] using hb)]
  exact ⟨_, rfl⟩

theorem bdateRange_getLast? {s e : Nat} (hse : s ≤ e) (hb : e % 7 < 5) :
    (bdateRange s e).getLast? = some e := by
  unfold bdateRange
  have h1 : e + 1 - s = (e - s) + 1 := by omega
  rw [h1, range'_snoc, List.filter_append]
  have h2 : s + (e - s) = e := by omega
  rw [h2]
  rw [show List.filter isBusinessDay [e] = [e] from by simp [isBusinessDay, hb]]
  exact List.getLast?_concat _

/-- Walking a prefix whose consecutive gaps are all within tolerance only
moves `current_end` to the prefix's last element. -/
theorem groupLoop_chain_append (m : Nat) (exp : List Nat) :
    ∀ (rest : List Nat) (cs ce la : Nat),
      List.Chain' (fun a b => b - a ≤ 3) (ce :: exp) →
      (ce :: exp).getLast? = some la →
      groupLoop m (exp ++ rest) cs ce = groupLoop m rest cs la := by
  induction exp with
  | nil =>
    intro rest cs ce la _ hlast
    simp only [List.getLast?_singleton, Option.some.injEq] at hlast
    subst hlast; rfl
  | cons x tl ih =>
    intro rest cs ce la hch hlast
    rw [List.chain'_cons] at hch
    rw [List.cons_append, groupLoop_cons, if_pos hch.1]
    refine ih rest cs x la hch.2 ?_
    rw [← hlast, List.getLast?_cons_cons]

/-- Regrouping the concatenated business-day expansions of well-separated,
long-enough ranges returns the ranges unchanged. -/
theorem group_expandRanges (m : Nat) : ∀ (rs : List DateRange),
    (∀ r ∈ rs, r.start ≤ r.stop ∧ r.start % 7 < 5 ∧ r.stop % 7 < 5 ∧
      m < bdateCount r.start r.stop) →
    List.Pairwise (fun a b => a.stop + 3 < b.start) rs →
    group_missing_dates (expandRanges rs) m = rs := by
  intro rs
  induction rs with
  | nil => intro _ _; rfl
  | cons r rs2 ih =>
    intro hr hp
    obtain ⟨hse, hbs, hbe, hcount⟩ := hr r (List.mem_cons_self r rs2)
    obtain ⟨t, ht⟩ := bdateRange_eq_cons hse hbs
    have hchain : List.Chain' (fun a b => b - a ≤ 3) (r.start :: t) := by
      rw [← ht]; exact bdateRange_chain r.start r.stop
    have hlast : (r.start :: t).getLast? = some r.stop := by
      rw [← ht]; exact bdateRange_getLast? hse hbe
    rw [show expandRanges (r :: rs2) = bdateRange r.start r.stop ++ expandRanges rs2 from rfl,
      ht, List.cons_append]
    rw [show group_missing_dates (r.start :: (t ++ expandRanges rs2)) m =
      groupLoop m (t ++ expandRanges rs2) r.start r.start from rfl]
    rw [groupLoop_chain_append m t (expandRanges rs2) r.start r.start r.stop hchain hlast]
    cases rs2 with
    | nil =>
      show groupLoop m [] r.start r.stop = [r]
      rw [groupLoop_nil, if_pos hcount]
    | cons r2 rs3 =>
      obtain ⟨hse2, hbs2, hbe2, hcount2⟩ := hr r2 (by simp)
      obtain ⟨t2, ht2⟩ := bdateRange_eq_cons hse2 hbs2
      show groupLoop m (bdateRange r2.start r2.stop ++ expandRanges rs3) r.start r.stop =
        r :: r2 :: rs3
      rw [ht2, List.cons_append, groupLoop_cons]
      have hgap : r.stop + 3 < r2.start := (List.pairwise_cons.mp hp).1 r2 (by simp)
      rw [if_neg (by omega), if_pos hcount]
      have hrec : group_missing_dates (expandRanges (r2 :: rs3)) m = r2 :: rs3 :=
        ih (fun x hx => hr x (List.mem_cons_of_mem _ hx)) (List.pairwise_cons.mp hp).2
      rw [show expandRanges (r2 :: rs3) = bdateRange r2.start r2.stop ++ expandRanges rs3
          from rfl, ht2, List.cons_append] at hrec
      rw [show group_missing_dates (r2.start :: (t2 ++ expandRanges rs3)) m =
        groupLoop m (t2 ++ expandRanges rs3) r2.start r2.start from rfl] at hrec
      rw [hrec]
      rfl

/-- C6: grouping is idempotent: expanding each output range of
`group_missing_dates` into the ascending list of its business days,
concatenating these lists, and regrouping with the same minimum-duration
parameter yields exactly the same list of ranges, for any ascending list of
missing dates (which, being missing *business* dates, are Mon-Fri days). -/
theorem group_missing_dates_idempotent (missing : List Nat) (m : Nat)
    (hs : List.Sorted (· ≤ ·) missing) (hb : ∀ d ∈ missing, d % 7 < 5) :
    group_missing_dates (expandRanges (group_missing_dates missing m)) m =
      group_missing_dates missing m := by
  cases missing with
  | nil => rfl
  | cons d rest =>
    have h := groupLoop_spec m rest d d hs.chain' (le_refl d)
    apply group_expandRanges
    · intro r hr
      obtain ⟨h1, h2, h3, h4, h5⟩ := h.1 r hr
      refine ⟨h2, ?_, ?_, h3⟩
      · rcases h4 with h4 | h4
        · rw [h4]; exact hb d (List.mem_cons_self d rest)
        · exact hb r.start (List.mem_cons_of_mem _ h4)
      · rcases h5 with h5 | h5
        · rw [h5]; exact hb d (List.mem_cons_self d rest)
        · exact hb r.stop (List.mem_cons_of_mem _ h5)
    · exact h.2

/-- C6 witness: a concrete ascending list of business days. -/
theorem group_missing_dates_idempotent_witness :
    group_missing_dates (expandRanges (group_missing_dates [7, 8, 9, 14] 0)) 0 =
      group_missing_dates [7, 8, 9, 14] 0 :=
  group_missing_dates_idempotent [7, 8, 9, 14] 0 (by decide) (by decide)

/-- C5 witness: days 7 and 10 (Monday and Thursday). -/
theorem group_merge_rule_witness :
    (group_missing_dates [7, 10] 0 = [⟨7, 10⟩] ↔ 10 - 7 ≤ 3) ∧
    group_missing_dates (7 :: [10]) 1 =
      (if 1 < bdateCount 7 ((7 :: [10]).getLast (List.cons_ne_nil 7 [10])) then
        [⟨7, (7 :: [10]).getLast (List.cons_ne_nil 7 [10])⟩]
      else []) :=
  group_merge_rule 7 10 1 [10] (by decide) (by decide) (by decide)
    (List.Chain.cons (by decide) List.Chain.nil)


/-! ### Report-retirement lemmas -/

theorem lookup_cons (a k : Symbol) (v : List DateRange) (tl : Report) :
    List.lookup a ((k, v) :: tl) = if a = k then some v else List.lookup a tl := by
  by_cases h : a = k
  · simp [List.lookup, h]
  · simp [List.lookup, h, beq_eq_false_iff_ne.mpr h]

theorem core_nil (r : DateRange) (s : Symbol) : retireSymbolCore [] r s = [] := rfl

theorem core_cons_eq (r : DateRange) (s k : Symbol) (v : List DateRange) (tl : Report) :
    retireSymbolCore ((k, v) :: tl) r s =
      if k = s then
        (if (v.filter (fun q => !(rangeMatches r q))).isEmpty then retireSymbolCore tl r s
         else (k, v.filter (fun q => !(rangeMatches r q))) :: retireSymbolCore tl r s)
      else (k, v) :: retireSymbolCore tl r s := by
  by_cases hk : k = s
  · subst hk
    by_cases hv : ((v.filter (fun q => !(rangeMatches r q))).isEmpty) = true
    · simp [retireSymbolCore, hv]
    · simp [retireSymbolCore, hv]
  · simp [retireSymbolCore, hk, beq_eq_false_iff_ne.mpr hk]

theorem core_eq_self_of_no_key {r : DateRange} {s : Symbol} :
    ∀ rep : Report, (∀ p ∈ rep, p.1 ≠ s) → retireSymbolCore rep r s = rep := by
  intro rep
  induction rep with
  | nil => intro _; rfl
  | cons p tl ih =>
    intro h
    obtain ⟨k, v⟩ := p
    rw [core_cons_eq, if_neg (h (k, v) (List.mem_cons_self _ tl)),
      ih (fun q hq => h q (List.mem_cons_of_mem _ hq))]

theorem retireSymbol_eq_core (rep : Report) (r : DateRange) (s : Symbol) :
    retireSymbol rep r s = retireSymbolCore rep r s := by
  unfold retireSymbol
  split
  · rfl
  · rename_i hg
    refine (core_eq_self_of_no_key rep ?_).symm
    intro p hp he
    exact hg (List.any_eq_true.mpr ⟨p, hp, by simp [he]⟩)

theorem lookup_eq_none_of_keys {s : Symbol} :
    ∀ L : Report, (∀ p ∈ L, p.1 ≠ s) → List.lookup s L = none := by
  intro L
  induction L with
  | nil => intro _; rfl
  | cons p tl ih =>
    intro h
    obtain ⟨k, v⟩ := p
    rw [lookup_cons, if_neg (fun he => h (k, v) (List.mem_cons_self _ tl) he.symm)]
    exact ih (fun q hq => h q (List.mem_cons_of_mem _ hq))

theorem keys_core_subset {r : DateRange} {s : Symbol} :
    ∀ rep : Report, ∀ a, a ∈ (retireSymbolCore rep r s).map Prod.fst → a ∈ rep.map Prod.fst := by
  intro rep
  induction rep with
  | nil => intro a ha; rw [core_nil] at ha; cases ha
  | cons p tl ih =>
    obtain ⟨k, v⟩ := p
    intro a ha
    rw [core_cons_eq] at ha
    by_cases hk : k = s
    · rw [if_pos hk] at ha
      by_cases hv : ((v.filter (fun q => !(rangeMatches r q))).isEmpty) = true
      · rw [if_pos hv] at ha
        exact List.mem_cons_of_mem _ (ih a ha)
      · rw [if_neg hv] at ha
        simp only [List.map_cons, List.mem_cons] at ha
        rcases ha with h1 | h1
        · exact h1 ▸ List.mem_cons_self _ _
        · exact List.mem_cons_of_mem _ (ih a h1)
    · rw [if_neg hk] at ha
      simp only [List.map_cons, List.mem_cons] at ha
      rcases ha with h1 | h1
      · exact h1 ▸ List.mem_cons_self _ _
      · exact List.mem_cons_of_mem _ (ih a h1)

theorem core_keys_nodup {r : DateRange} {s : Symbol} :
    ∀ rep : Report, (rep.map Prod.fst).Nodup → ((retireSymbolCore rep r s).map Prod.fst).Nodup := by
  intro rep
  induction rep with
  | nil => intro _; rw [core_nil]; exact List.nodup_nil
  | cons p tl ih =>
    obtain ⟨k, v⟩ := p
    intro hnd
    simp only [List.map_cons, List.nodup_cons] at hnd
    rw [core_cons_eq]
    by_cases hk : k = s
    · rw [if_pos hk]
      by_cases hv : ((v.filter (fun q => !(rangeMatches r q))).isEmpty) = true
      · rw [if_pos hv]
        exact ih hnd.2
      · rw [if_neg hv]
        simp only [List.map_cons, List.nodup_cons]
        exact ⟨fun hmem => hnd.1 (keys_core_subset tl k hmem), ih hnd.2⟩
    · rw [if_neg hk]
      simp only [List.map_cons, List.nodup_cons]
      exact ⟨fun hmem => hnd.1 (keys_core_subset tl k hmem), ih hnd.2⟩

theorem lookup_core_ne {r : DateRange} {s t : Symbol} (hne : t ≠ s) :
    ∀ rep : Report, List.lookup t (retireSymbolCore rep r s) = List.lookup t rep := by
  intro rep
  induction rep with
  | nil => rfl
  | cons p tl ih =>
    obtain ⟨k, v⟩ := p
    rw [core_cons_eq]
    by_cases hk : k = s
    · rw [if_pos hk]
      have htk : t ≠ k := fun he => hne (he.trans hk)
      by_cases hv : ((v.filter (fun q => !(rangeMatches r q))).isEmpty) = true
      · rw [if_pos hv, lookup_cons, if_neg htk]
        exact ih
      · rw [if_neg hv, lookup_cons, if_neg htk, lookup_cons, if_neg htk]
        exact ih
    · rw [if_neg hk, lookup_cons, lookup_cons]
      by_cases htk : t = k
      · rw [if_pos htk, if_pos htk]
      · rw [if_neg htk, if_neg htk]
        exact ih

theorem lookup_core_self {r : DateRange} {s : Symbol} :
    ∀ rep : Report, (rep.map Prod.fst).Nodup →
      List.lookup s (retireSymbolCore rep r s) = retireTransform r (List.lookup s rep) := by
  intro rep
  induction rep with
  | nil => intro _; rfl
  | cons p tl ih =>
    intro hnd
    obtain ⟨k, v⟩ := p
    simp only [List.map_cons, List.nodup_cons] at hnd
    rw [core_cons_eq]
    by_cases hk : k = s
    · subst hk
      by_cases hv : ((v.filter (fun q => !(rangeMatches r q))).isEmpty) = true
      · rw [if_pos rfl, if_pos hv]
        have hnone : List.lookup k (retireSymbolCore tl r k) = none :=
          lookup_eq_none_of_keys _ (fun p hp he =>
            hnd.1 (he ▸ keys_core_subset tl p.1 (List.mem_map.mpr ⟨p, hp, rfl⟩)))
        rw [hnone, lookup_cons, if_pos rfl]
        simp [retireTransform, hv]
      · rw [if_pos rfl, if_neg hv, lookup_cons, if_pos rfl, lookup_cons, if_pos rfl]
        simp [retireTransform, hv]
    · have hsk : s ≠ k := fun he => hk he.symm
      rw [if_neg hk, lookup_cons, if_neg hsk, lookup_cons, if_neg hsk]
      exact ih hnd.2

theorem retireTransform_idem (r : DateRange) (ol : Option (List DateRange)) :
    retireTransform r (retireTransform r ol) = retireTransform r ol := by
  cases ol with
  | none => rfl
  | some l =>
    simp only [retireTransform]
    by_cases h : ((l.filter (fun q => !(rangeMatches r q))).isEmpty) = true
    · rw [if_pos h]
    · rw [if_neg h]
      simp only [retireTransform, List.filter_filter, Bool.and_self]
      rw [if_neg h]

theorem retireTransform_not_mem (r : DateRange) (ol : Option (List DateRange)) :
    r ∉ (retireTransform r ol).getD [] := by
  cases ol with
  | none => simp [retireTransform]
  | some l =>
    simp only [retireTransform]
    by_cases h : ((l.filter (fun q => !(rangeMatches r q))).isEmpty) = true
    · simp [h]
    · rw [if_neg h]
      intro hmem
      simp only [Option.getD_some] at hmem
      have := (List.mem_filter.mp hmem).2
      simp [rangeMatches] at this

theorem retireSymbol_keys_nodup {rep : Report} {r : DateRange} {s : Symbol}
    (h : (rep.map Prod.fst).Nodup) : ((retireSymbol rep r s).map Prod.fst).Nodup := by
  rw [retireSymbol_eq_core]; exact core_keys_nodup rep h

theorem retireRange_cons (rep : Report) (r : DateRange) (s2 : Symbol) (syms : List Symbol) :
    retireRange rep r (s2 :: syms) = retireRange (retireSymbol rep r s2) r syms := rfl

theorem lookup_retireRange (r : DateRange) (s : Symbol) :
    ∀ (syms : List Symbol) (rep : Report), (rep.map Prod.fst).Nodup →
      List.lookup s (retireRange rep r syms) =
        if s ∈ syms then retireTransform r (List.lookup s rep) else List.lookup s rep := by
  intro syms
  induction syms with
  | nil => intro rep _; simp [retireRange]
  | cons s2 syms ih =>
    intro rep hnd
    rw [retireRange_cons, ih _ (retireSymbol_keys_nodup hnd)]
    by_cases hs2 : s = s2
    · subst hs2
      rw [retireSymbol_eq_core, lookup_core_self rep hnd]
      by_cases hmem : s ∈ syms
      · rw [if_pos hmem, if_pos (List.mem_cons_self s syms), retireTransform_idem]
      · rw [if_neg hmem, if_pos (List.mem_cons_self s syms)]
    · have heq : List.lookup s (retireSymbol rep r s2) = List.lookup s rep := by
        rw [retireSymbol_eq_core]; exact lookup_core_ne hs2 rep
      rw [heq]
      by_cases hmem : s ∈ syms
      · rw [if_pos hmem, if_pos (List.mem_cons_of_mem _ hmem)]
      · rw [if_neg hmem, if_neg (by simp [hs2, hmem])]

/-- C8: retiring a range after a fully successful pass changes the report
only as follows, for each symbol: a symbol outside the unit keeps exactly
its previous entry; a symbol of the unit keeps its previous obligations
minus exactly the entries whose start and end both equal the retired range,
and its key is deleted entirely when that filtered list becomes empty. -/
theorem retireRange_frame (rep : Report) (r : DateRange) (syms : List Symbol) (s : Symbol)
    (hnodup : (rep.map Prod.fst).Nodup) :
    List.lookup s (retireRange rep r syms) =
      if s ∈ syms then retireTransform r (List.lookup s rep) else List.lookup s rep :=
  lookup_retireRange r s syms rep hnodup

/-- C8 witness: Scenario C — a report holding only `"AAA" : [2025-01-01 ..
2025-01-05]` (days 2 .. 6) loses the key `"AAA"` entirely after a successful
run covering exactly that range. -/
theorem retireRange_frame_witness :
    List.lookup "AAA" (retireRange [("AAA", [⟨2, 6⟩])] ⟨2, 6⟩ ["AAA"]) = none :=
  (retireRange_frame [("AAA", [⟨2, 6⟩])] ⟨2, 6⟩ ["AAA"] "AAA" (by decide)).trans (by decide)

/-! ### Non-empty-values invariant -/

theorem core_values {rep : Report} {r : DateRange} {s : Symbol}
    (h : ∀ p ∈ rep, p.2.isEmpty = false) :
    ∀ p ∈ retireSymbolCore rep r s, p.2.isEmpty = false := by
  intro p hp
  obtain ⟨hmap0, hg⟩ := List.mem_filter.mp hp
  obtain ⟨q, hq, hfq⟩ := List.mem_map.mp hmap0
  by_cases hk : (q.1 == s) = true
  · rw [if_pos hk] at hfq
    rw [← hfq] at hg ⊢
    simpa [hk] using hg
  · rw [if_neg hk] at hfq
    rw [← hfq]
    exact h q hq

theorem retireRange_values {r : DateRange} :
    ∀ (syms : List Symbol) (rep : Report), (∀ p ∈ rep, p.2.isEmpty = false) →
      ∀ p ∈ retireRange rep r syms, p.2.isEmpty = false := by
  intro syms
  induction syms with
  | nil => intro rep h; exact h
  | cons s2 syms ih =>
    intro rep h
    rw [retireRange_cons]
    refine ih _ (fun p hp => ?_)
    rw [retireSymbol_eq_core] at hp
    exact core_values h p hp

theorem dictInsert_values {rep : Report} {s : Symbol} {v : List DateRange}
    (h : ∀ p ∈ rep, p.2.isEmpty = false) (hv : v.isEmpty = false) :
    ∀ p ∈ dictInsert rep s v, p.2.isEmpty = false := by
  intro p hp
  unfold dictInsert at hp
  split at hp
  · obtain ⟨q, hq, hfq⟩ := List.mem_map.mp hp
    by_cases hk : (q.1 == s) = true
    · rw [if_pos hk] at hfq
      rw [← hfq]
      exact hv
    · rw [if_neg hk] at hfq
      rw [← hfq]
      exact h q hq
  · rcases List.mem_append.mp hp with hp2 | hp2
    · exact h p hp2
    · rw [List.mem_singleton.mp hp2]
      exact hv

theorem buildDetectionReport_values (symbols : List Symbol) (cov : Symbol → List (Nat × Nat))
    (ds de : Nat) (ex : List DateRange) (m : Nat) :
    ∀ p ∈ buildDetectionReport symbols cov ds de ex m, p.2.isEmpty = false := by
  suffices h : ∀ (syms : List Symbol) (acc : Report), (∀ p ∈ acc, p.2.isEmpty = false) →
      ∀ p ∈ syms.foldl (fun acc s =>
        let missing := find_missing_dates (cov s) ds de ex
        if missing.isEmpty then acc
        else
          let ranges := group_missing_dates missing m
          if ranges.isEmpty then acc else dictInsert acc s ranges) acc, p.2.isEmpty = false by
    exact h symbols [] (by intro p hp; cases hp)
  intro syms
  induction syms with
  | nil => intro acc hacc; exact hacc
  | cons s2 syms ih =>
    intro acc hacc
    rw [List.foldl_cons]
    refine ih _ ?_
    dsimp only
    split
    · exact hacc
    · split
      · exact hacc
      · rename_i hr
        refine dictInsert_values hacc ?_
        simpa using hr

/-- C10: every symbol key of the persisted report maps to a non-empty range
list: a detection run writes a symbol only when its filtered range list is
non-empty, and the executor deletes a symbol's key whenever retiring a range
empties its list, so every rewrite preserves the invariant. -/
theorem report_values_nonempty (symbols : List Symbol) (cov : Symbol → List (Nat × Nat))
    (ds de : Nat) (ex : List DateRange) (m : Nat) (rep : Report) (r : DateRange)
    (syms : List Symbol) :
    ((buildDetectionReport symbols cov ds de ex m).all (fun p => !p.2.isEmpty) = true) ∧
    (rep.all (fun p => !p.2.isEmpty) = true →
      (retireRange rep r syms).all (fun p => !p.2.isEmpty) = true) := by
  constructor
  · rw [List.all_eq_true]
    intro p hp
    have := buildDetectionReport_values symbols cov ds de ex m p hp
    simp [this]
  · intro hrep
    rw [List.all_eq_true]
    intro p hp
    rw [List.all_eq_true] at hrep
    have := retireRange_values syms rep (fun q hq => by simpa using hrep q hq) p hp
    simp [this]

/-- C10 witness. -/
theorem report_values_nonempty_witness :
    ((buildDetectionReport ["A"] (fun _ => []) 7 8 [] 0).all (fun p => !p.2.isEmpty) = true) ∧
    (retireRange [("A", [⟨7, 8⟩]), ("B", [⟨1, 2⟩])] ⟨7, 8⟩ ["A"]).all
      (fun p => !p.2.isEmpty) = true :=
  ⟨(report_values_nonempty ["A"] (fun _ => []) 7 8 [] 0 [] ⟨0, 0⟩ []).1,
    (report_values_nonempty [] (fun _ => []) 0 0 [] 0 [("A", [⟨7, 8⟩]), ("B", [⟨1, 2⟩])]
      ⟨7, 8⟩ ["A"]).2 (by decide)⟩

/-! ### Unit success and failure -/

theorem foldl_processSymbol_false (o : Oracles) (r : DateRange) (sl : Symbol → Option Nat) :
    ∀ (sb : List Symbol) (acc : Bool × List Effect), acc.1 = false →
      (sb.foldl (processSymbol o r sl) acc).1 = false := by
  intro sb
  induction sb with
  | nil => intro acc h; exact h
  | cons s2 sb ih =>
    intro acc h
    rw [List.foldl_cons]
    refine ih _ ?_
    cases hsl : sl s2 with
    | none => simpa [processSymbol, hsl] using h
    | some n =>
      cases n with
      | zero => simpa [processSymbol, hsl] using h
      | succ k => simp [processSymbol, hsl, h]

theorem foldl_processSymbol_ok (o : Oracles) (r : DateRange) (sl : Symbol → Option Nat) :
    ∀ (sb : List Symbol) (acc : Bool × List Effect),
      (∀ s2 ∈ sb, ∀ n, sl s2 = some n → n ≠ 0 → o.upsert s2 r = true) →
      (sb.foldl (processSymbol o r sl) acc).1 = acc.1 := by
  intro sb
  induction sb with
  | nil => intro acc _; rfl
  | cons s2 sb ih =>
    intro acc hup
    rw [List.foldl_cons,
      ih _ (fun s3 h3 => hup s3 (List.mem_cons_of_mem _ h3))]
    cases hsl : sl s2 with
    | none => simp [processSymbol, hsl]
    | some n =>
      cases n with
      | zero => simp [processSymbol, hsl]
      | succ k =>
        have := hup s2 (List.mem_cons_self _ _) (k + 1) hsl (Nat.succ_ne_zero k)
        simp [processSymbol, hsl, this]

theorem processSubBatch_ok (o : Oracles) (r : DateRange) (sb : List Symbol)
    (sl : Symbol → Option Nat) (hf : o.fetch r sb = FetchResult.frames sl)
    (hup : ∀ s2 ∈ sb, ∀ n, sl s2 = some n → n ≠ 0 → o.upsert s2 r = true) :
    (processSubBatch o r sb).1 = true := by
  unfold processSubBatch
  rw [hf]
  exact foldl_processSymbol_ok o r sl sb (true, [Effect.fetched r sb]) hup

theorem processSubBatch_fail (o : Oracles) (r : DateRange) (sb : List Symbol)
    (sl : Symbol → Option Nat) (s : Symbol) (n : Nat)
    (hf : o.fetch r sb = FetchResult.frames sl) (hmem : s ∈ sb)
    (hsl : sl s = some n) (hn : n ≠ 0) (hup : o.upsert s r = false) :
    (processSubBatch o r sb).1 = false := by
  unfold processSubBatch
  rw [hf]
  show (sb.foldl (processSymbol o r sl) (true, [Effect.fetched r sb])).1 = false
  obtain ⟨l1, l2, heq⟩ := List.append_of_mem hmem
  rw [heq, List.foldl_append, List.foldl_cons]
  apply foldl_processSymbol_false
  cases n with
  | zero => exact absurd rfl hn
  | succ k => simp [processSymbol, hsl, hup]

theorem foldl_subBatchStep_false (o : Oracles) (r : DateRange) :
    ∀ (cl : List (List Symbol)) (acc : Bool × List Effect), acc.1 = false →
      (cl.foldl (subBatchStep o r) acc).1 = false := by
  intro cl
  induction cl with
  | nil => intro acc h; exact h
  | cons sb cl ih =>
    intro acc h
    rw [List.foldl_cons]
    refine ih _ ?_
    simp [subBatchStep, h]

theorem foldl_subBatchStep_ok (o : Oracles) (r : DateRange) :
    ∀ (cl : List (List Symbol)) (acc : Bool × List Effect),
      (∀ sb ∈ cl, (processSubBatch o r sb).1 = true) →
      (cl.foldl (subBatchStep o r) acc).1 = acc.1 := by
  intro cl
  induction cl with
  | nil => intro acc _; rfl
  | cons sb cl ih =>
    intro acc hok
    rw [List.foldl_cons, ih _ (fun sb2 h2 => hok sb2 (List.mem_cons_of_mem _ h2))]
    simp [subBatchStep, hok sb (List.mem_cons_self _ _)]

theorem processRange_of_success (o : Oracles) (bs : Nat) (rep : Report) (r : DateRange)
    (syms : List Symbol)
    (hok : ∀ sb ∈ chunks bs syms, (processSubBatch o r sb).1 = true) :
    (processRange o bs rep r syms).1 = retireRange rep r syms := by
  have h : ((chunks bs syms).foldl (subBatchStep o r) (true, [])).1 = true :=
    foldl_subBatchStep_ok o r (chunks bs syms) (true, []) hok
  simp [processRange, h]

theorem processRange_of_failure (o : Oracles) (bs : Nat) (rep : Report) (r : DateRange)
    (syms sb : List Symbol) (hsb : sb ∈ chunks bs syms)
    (hfail : (processSubBatch o r sb).1 = false) :
    (processRange o bs rep r syms).1 = rep := by
  have hres : ((chunks bs syms).foldl (subBatchStep o r) (true, [])).1 = false := by
    obtain ⟨l1, l2, heq⟩ := List.append_of_mem hsb
    rw [heq, List.foldl_append, List.foldl_cons]
    apply foldl_subBatchStep_false
    simp [subBatchStep, hfail]
  simp [processRange, hres]

/-- C1 (amended): when the DataSource fetch succeeds for every sub-batch of
the unit and every symbol whose slice is non-empty upserts successfully, the
unit is fully successful, so the `(start, end)` obligation is removed for
*every* symbol of the unit — including a symbol whose slice was empty or
missing, whose obligation is removed rather than retained. -/
theorem unit_success_retires_all (o : Oracles) (bs : Nat) (rep : Report) (r : DateRange)
    (syms : List Symbol) (s : Symbol)
    (hok : ∀ sb ∈ chunks bs syms, ∃ sl, o.fetch r sb = FetchResult.frames sl ∧
      ∀ s2 ∈ sb, ∀ n, sl s2 = some n → n ≠ 0 → o.upsert s2 r = true)
    (hnodup : (rep.map Prod.fst).Nodup) (hs : s ∈ syms) :
    (processRange o bs rep r syms).1 = retireRange rep r syms ∧
    List.lookup s (retireRange rep r syms) = retireTransform r (List.lookup s rep) ∧
    r ∉ (retireTransform r (List.lookup s rep)).getD [] := by
  refine ⟨?_, ?_, retireTransform_not_mem r _⟩
  · refine processRange_of_success o bs rep r syms (fun sb hsb => ?_)
    obtain ⟨sl, hf, hup⟩ := hok sb hsb
    exact processSubBatch_ok o r sb sl hf hup
  · rw [lookup_retireRange r s syms rep hnodup, if_pos hs]

/-- C1 counterexample: Scenario B with symbols `{A, B, C}` and range
`[2025-02-01, 2025-02-10]`, where the DataSource returns data for A and C
but an empty slice for B and all upserts succeed: after the run the final
report is empty, i.e. B's obligation has been removed as well, not retained
as the claim requires. -/
theorem unit_success_retires_all_counterexample :
    (runMain (some reportABC) oraclesEmptySliceB 10).1 = some [] ∧
    List.lookup "B" reportABC = some [unitRange] := by decide

/-- C1 witness: the Scenario B data. -/
theorem unit_success_retires_all_witness :
    (processRange oraclesEmptySliceB 10 reportABC unitRange ["A", "B", "C"]).1 =
      retireRange reportABC unitRange ["A", "B", "C"] ∧
    List.lookup "B" (retireRange reportABC unitRange ["A", "B", "C"]) =
      retireTransform unitRange (List.lookup "B" reportABC) ∧
    unitRange ∉ (retireTransform unitRange (List.lookup "B" reportABC)).getD [] :=
  unit_success_retires_all oraclesEmptySliceB 10 reportABC unitRange ["A", "B", "C"] "B"
    (by
      intro sb hsb
      have hc : chunks 10 ["A", "B", "C"] = [["A", "B", "C"]] := rfl
      rw [hc, List.mem_singleton] at hsb
      subst hsb
      exact ⟨fun s => if s = "B" then none else some 5, rfl, fun _ _ _ _ _ => rfl⟩)
    (by decide) (by decide)

/-- C2 (amended): when the store upsert fails for any symbol of the unit
whose slice resolved non-empty, the unit is not fully successful and the
executor leaves the report exactly unchanged for that range: every symbol of
the unit — including those whose upsert succeeded — retains its `(start,
end)` obligation, so a subsequent run retries the whole unit rather than
exactly the failed symbols. -/
theorem partial_failure_retains_unit (o : Oracles) (bs : Nat) (rep : Report) (r : DateRange)
    (syms sb : List Symbol) (s : Symbol) (sl : Symbol → Option Nat) (n : Nat)
    (hsb : sb ∈ chunks bs syms) (hmem : s ∈ sb)
    (hf : o.fetch r sb = FetchResult.frames sl) (hsl : sl s = some n) (hn : n ≠ 0)
    (hup : o.upsert s r = false) :
    (processRange o bs rep r syms).1 = rep :=
  processRange_of_failure o bs rep r syms sb hsb
    (processSubBatch_fail o r sb sl s n hf hmem hsl hn hup)

/-- C2 counterexample: a unit with symbols A and B where A's upsert succeeds
and B's fails: after the run the report still contains A's obligation, even
though A saved successfully, because retirement is all-or-nothing per
unit. -/
theorem partial_failure_retains_unit_counterexample :
    (runMain (some reportAB) oraclesUpsertFailB 10).1 = some reportAB ∧
    List.lookup "A" reportAB = some [unitRange] := by decide

/-- C2 witness: the same unit, at the `processRange` level. -/
theorem partial_failure_retains_unit_witness :
    (processRange oraclesUpsertFailB 10 reportAB unitRange ["A", "B"]).1 = reportAB :=
  partial_failure_retains_unit oraclesUpsertFailB 10 reportAB unitRange ["A", "B"]
    ["A", "B"] "B" (fun _ => some 5) 5 (by decide) (by decide) rfl rfl (by decide)
    (by decide)

/-! ### Executor ordering -/

theorem insertDesc_perm (r : DateRange) :
    ∀ l : List DateRange, (insertDesc r l).Perm (r :: l) := by
  intro l
  induction l with
  | nil => exact List.Perm.refl _
  | cons x xs ih =>
    unfold insertDesc
    by_cases h : duration x ≤ duration r
    · rw [if_pos h]
    · rw [if_neg h]
      exact (ih.cons x).trans (List.Perm.swap r x xs)

theorem insertDesc_pairwise (r : DateRange) :
    ∀ l : List DateRange, List.Pairwise (fun a b => duration b ≤ duration a) l →
      List.Pairwise (fun a b => duration b ≤ duration a) (insertDesc r l) := by
  intro l
  induction l with
  | nil => intro _; exact List.pairwise_singleton _ _
  | cons x xs ih =>
    intro h
    rw [List.pairwise_cons] at h
    unfold insertDesc
    by_cases hd : duration x ≤ duration r
    · rw [if_pos hd, List.pairwise_cons]
      refine ⟨fun y hy => ?_, List.pairwise_cons.mpr h⟩
      rcases List.mem_cons.mp hy with h1 | h1
      · exact h1 ▸ hd
      · exact le_trans (h.1 y h1) hd
    · rw [if_neg hd, List.pairwise_cons]
      refine ⟨fun y hy => ?_, ih h.2⟩
      rcases List.mem_cons.mp ((insertDesc_perm r xs).mem_iff.mp hy) with h1 | h1
      · exact h1 ▸ (not_le.mp hd).le
      · exact h.1 y h1

theorem sortByDurationDesc_perm :
    ∀ l : List DateRange, (sortByDurationDesc l).Perm l := by
  intro l
  induction l with
  | nil => exact List.Perm.refl _
  | cons x xs ih =>
    exact (insertDesc_perm x (sortByDurationDesc xs)).trans (ih.cons x)

theorem sortByDurationDesc_pairwise :
    ∀ l : List DateRange, List.Pairwise (fun a b => duration b ≤ duration a)
      (sortByDurationDesc l) := by
  intro l
  induction l with
  | nil => exact List.Pairwise.nil
  | cons x xs ih => exact insertDesc_pairwise x _ ih

/-! ### Trace structure -/

theorem foldl_processSymbol_ranges (o : Oracles) (r : DateRange) (sl : Symbol → Option Nat) :
    ∀ (sb : List Symbol) (acc : Bool × List Effect),
      (∀ e ∈ acc.2, ∀ r2, effectRange e = some r2 → r2 = r) →
      ∀ e ∈ (sb.foldl (processSymbol o r sl) acc).2, ∀ r2, effectRange e = some r2 → r2 = r := by
  intro sb
  induction sb with
  | nil => intro acc h; exact h
  | cons s2 sb ih =>
    intro acc h
    rw [List.foldl_cons]
    refine ih _ ?_
    cases hsl : sl s2 with
    | none => simpa [processSymbol, hsl] using h
    | some n =>
      cases n with
      | zero => simpa [processSymbol, hsl] using h
      | succ k =>
        simp only [processSymbol, hsl]
        intro e he r2 hr2
        rcases List.mem_append.mp he with he | he
        · exact h e he r2 hr2
        · rw [List.mem_singleton.mp he] at hr2
          simpa [effectRange] using hr2.symm

theorem processSubBatch_ranges (o : Oracles) (r : DateRange) (sb : List Symbol) :
    ∀ e ∈ (processSubBatch o r sb).2, ∀ r2, effectRange e = some r2 → r2 = r := by
  unfold processSubBatch
  cases hf : o.fetch r sb with
  | fetchError =>
    intro e he r2 hr2
    rw [List.mem_singleton.mp he] at hr2
    simpa [effectRange] using hr2.symm
  | noData =>
    intro e he r2 hr2
    rw [List.mem_singleton.mp he] at hr2
    simpa [effectRange] using hr2.symm
  | frames sl =>
    refine foldl_processSymbol_ranges o r sl sb (true, [Effect.fetched r sb]) ?_
    intro e he r2 hr2
    rw [List.mem_singleton.mp he] at hr2
    simpa [effectRange] using hr2.symm

theorem foldl_subBatchStep_ranges (o : Oracles) (r : DateRange) :
    ∀ (cl : List (List Symbol)) (acc : Bool × List Effect),
      (∀ e ∈ acc.2, ∀ r2, effectRange e = some r2 → r2 = r) →
      ∀ e ∈ (cl.foldl (subBatchStep o r) acc).2, ∀ r2, effectRange e = some r2 → r2 = r := by
  intro cl
  induction cl with
  | nil => intro acc h; exact h
  | cons sb cl ih =>
    intro acc h
    rw [List.foldl_cons]
    refine ih _ ?_
    simp only [subBatchStep]
    intro e he r2 hr2
    rcases List.mem_append.mp he with he | he
    · exact h e he r2 hr2
    · exact processSubBatch_ranges o r sb e he r2 hr2

theorem processRange_ranges (o : Oracles) (bs : Nat) (rep : Report) (r : DateRange)
    (syms : List Symbol) :
    ∀ e ∈ (processRange o bs rep r syms).2, ∀ r2, effectRange e = some r2 → r2 = r := by
  have hres : ∀ e ∈ ((chunks bs syms).foldl (subBatchStep o r) (true, [])).2,
      ∀ r2, effectRange e = some r2 → r2 = r := by
    refine foldl_subBatchStep_ranges o r (chunks bs syms) (true, []) ?_
    intro e he
    cases he
  intro e he r2 hr2
  simp only [processRange] at he
  split at he
  · rcases List.mem_append.mp he with he2 | he2
    · exact hres e he2 r2 hr2
    · rw [List.mem_singleton.mp he2] at hr2
      simp [effectRange] at hr2
  · exact hres e he r2 hr2

theorem touchedRanges_all (effs : List Effect) (r : DateRange)
    (h : ∀ e ∈ effs, ∀ r2, effectRange e = some r2 → r2 = r) :
    ∀ x ∈ touchedRanges effs, x = r := by
  intro x hx
  obtain ⟨e, he, hee⟩ := List.mem_filterMap.mp hx
  exact h e he x hee

theorem runFold_pairwise (o : Oracles) (bs : Nat) (rmap : List (DateRange × List Symbol)) :
    ∀ (order : List DateRange) (acc : Report × List Effect),
      List.Pairwise (fun a b => duration b ≤ duration a) (touchedRanges acc.2) →
      (∀ x ∈ touchedRanges acc.2, ∀ y ∈ order, duration y ≤ duration x) →
      List.Pairwise (fun a b => duration b ≤ duration a) order →
      List.Pairwise (fun a b => duration b ≤ duration a)
        (touchedRanges (order.foldl (rangeStep o bs rmap) acc).2) := by
  intro order
  induction order with
  | nil => intro acc h1 _ _; exact h1
  | cons r order ih =>
    intro acc h1 h2 h3
    rw [List.foldl_cons]
    rw [List.pairwise_cons] at h3
    have hall := touchedRanges_all _ r (processRange_ranges o bs acc.1 r (lookupRange rmap r))
    refine ih _ ?_ ?_ h3.2
    · simp only [rangeStep, touchedRanges, List.filterMap_append]
      rw [List.pairwise_append]
      refine ⟨h1, ?_, ?_⟩
      · have heq := List.eq_replicate_of_mem hall
        rw [show List.filterMap effectRange (processRange o bs acc.1 r (lookupRange rmap r)).2 =
          touchedRanges (processRange o bs acc.1 r (lookupRange rmap r)).2 from rfl, heq]
        exact List.pairwise_replicate.mpr (Or.inr (le_refl _))
      · intro x hx y hy
        have hyr : y = r := hall y hy
        exact hyr ▸ h2 x hx r (List.mem_cons_self _ _)
    · simp only [rangeStep, touchedRanges, List.filterMap_append]
      intro x hx y hy
      rcases List.mem_append.mp hx with hx | hx
      · exact h2 x hx y (List.mem_cons_of_mem _ hy)
      · have hxr : x = r := hall x hx
        exact hxr ▸ h3.1 y hy

/-- C7: the executor processes the distinct `(start, end)` ranges of the
report in duration-descending order: the processed order is a permutation of
the distinct ranges of the report, it is pairwise non-increasing in
duration, and the ranges touched by the fetch and upsert effects of a run
appear in exactly that order, so for any two ranges of one run the one with
the strictly larger duration is fetched and persisted before the other; no
reordering occurs. -/
theorem executor_duration_order (rep : Report) (o : Oracles) (bs : Nat) :
    (processedRanges rep).Perm (uniqueRanges rep) ∧
    List.Pairwise (fun a b => duration b ≤ duration a) (processedRanges rep) ∧
    List.Pairwise (fun a b => duration b ≤ duration a)
      (touchedRanges (runMain (some rep) o bs).2) := by
  refine ⟨sortByDurationDesc_perm _, sortByDurationDesc_pairwise _, ?_⟩
  simp only [runMain]
  split
  · exact List.Pairwise.nil
  · refine runFold_pairwise o bs (buildRangeMap rep) (processedRanges rep) (rep, []) ?_ ?_ ?_
    · exact List.Pairwise.nil
    · intro x hx
      cases hx
    · exact sortByDurationDesc_pairwise _

/-- C9: when the report file is malformed or unreadable at startup the load
returns `None` and the run aborts before any work: the effect trace is empty
— no fetch is issued, no upsert is performed, no report write happens — and
no report file is persisted. -/
theorem corrupt_report_aborts (msg : String) (o : Oracles) (bs : Nat) :
    runMain (load_missing_data_report (Except.error msg)) o bs = (none, []) := rfl

end PSX
